import Mathlib

/-!
Verification of the galileo-ssi cube decoding, alignment and contour-tracing
subsystem.  The definitions below are shallow embeddings of the Python
sources: `ssi/align.py` (cross-correlation registration and offset
application), `ssi/geometry/contour.py` (edge extraction and the
boundary-following walk), `ssi/isis/isis.py` (tile de-interleaving and float
NULL/saturation sanitization) and `ssi/img.py` / `ssi/pixel.py` (1-based
public indexing).  NaN is modelled as `none` in `Option ℚ`; numpy arrays are
rectangular lists of lists.
-/

namespace SSI

/-- Grid of float values; `none` models NaN. -/
abbrev Grid := List (List (Option ℚ))

/-- Boolean mask array (numpy bool 2-D array). -/
abbrev Mask := List (List Bool)

/-- Width (second component of `np.shape`) of a rectangular 2-D list. -/
def width {α : Type} (g : List (List α)) : ℕ := (g.headD []).length

/-- Element access on a grid, out-of-range reads give `none`. -/
def getg (g : Grid) (i j : ℕ) : Option ℚ := (g.getD i []).getD j none

/-- Element access on a mask, out-of-range reads give `false`. -/
def getPix (m : Mask) (i j : ℕ) : Bool := (m.getD i []).getD j false

/-! ## Alignment (`ssi/align.py`) -/

/-- Embedding of `np.nansum(g, axis=axis)`: NaN (`none`) counts as 0; axis 0
collapses the rows (per-column sums), axis 1 collapses each row. -/
def nansumAxis (g : Grid) (axis : ℕ) : List ℚ :=
  if axis = 0 then
    (List.range (width g)).map (fun j => (g.map (fun row => (row.getD j none).getD 0)).sum)
  else
    g.map (fun row => (row.map (fun x => x.getD 0)).sum)

/-- Value of a 1-D profile at a signed index, zero outside the range
(zero-padding used by `np.correlate`). -/
def qAt (l : List ℚ) (k : ℤ) : ℚ :=
  if 0 ≤ k ∧ k < (l.length : ℤ) then l.getD k.toNat 0 else 0

/-- Embedding of `np.correlate(a, v, 'same')` for equal-length inputs:
entry `i` is `Σ_n a[n] * v[n - i + N/2]` with zero padding. -/
def correlateSame (a v : List ℚ) : List ℚ :=
  (List.range a.length).map (fun (i : ℕ) =>
    ((List.range a.length).map
      (fun (n : ℕ) => a.getD n 0 * qAt v ((n : ℤ) - (i : ℤ) + ((a.length / 2 : ℕ) : ℤ)))).sum)

/-- Embedding of `np.argmax`: first index of the maximum (ties resolve to the
lowest index); 0 on the empty list. -/
def argmaxFirst : List ℚ → ℕ
  | [] => 0
  | [_] => 0
  | x :: y :: t =>
    if x < (y :: t).getD (argmaxFirst (y :: t)) 0 then argmaxFirst (y :: t) + 1 else 0

/-- Boolean navigation profile `np.nansum(nav, axis=axis) > 0`. -/
def navProfile (nav : Grid) (axis : ℕ) : List Bool :=
  (nansumAxis nav axis).map (fun x => decide (0 < x))

/-- Numeric cast of a boolean profile entry (numpy casts bool to 0/1). -/
def boolToQ (b : Bool) : ℚ := if b then 1 else 0

/-- Embedding of `corr_offset(data, nav, axis)`: correlation offset of the
navigation relative to the data, `len(corr)//2 - argmax(corr)`. -/
def corr_offset (data nav : Grid) (axis : ℕ) : Except String ℤ :=
  if axis = 0 ∨ axis = 1 then
    let d := nansumAxis data axis
    let ind := (navProfile nav axis).map boolToQ
    let corr := correlateSame ind d
    .ok (((corr.length / 2 : ℕ) : ℤ) - (argmaxFirst corr : ℤ))
  else .error "Axis must be `0` or `1."

/-- Hypothesis package for one axis: the collapsed data profile is
non-negative, the navigation validity profile is true exactly on the support
of the data profile (the pair is unshifted), and the support is non-empty. -/
def alignedAxis (data nav : Grid) (axis : ℕ) : Prop :=
  (nansumAxis data axis).length = (navProfile nav axis).length
  ∧ (∀ k, k < (nansumAxis data axis).length → 0 ≤ (nansumAxis data axis).getD k 0)
  ∧ (∀ k, k < (nansumAxis data axis).length →
      ((navProfile nav axis).getD k false = true ↔ 0 < (nansumAxis data axis).getD k 0))
  ∧ (∃ k, k < (nansumAxis data axis).length ∧ 0 < (nansumAxis data axis).getD k 0)

/-- One-dimensional shift with padding, the semantics of the numpy slice
assignment in `nav_offset` (`new[d:] = old[:n-d]` for `d ≥ 0`, and
`new[:n+d] = old[-d:]` for `d < 0`); faithful for `|d| ≤ n`. -/
def shift1 {α : Type} (n : ℕ) (d : ℤ) (pad : α) (l : List α) : List α :=
  if 0 ≤ d then List.replicate (min d.toNat n) pad ++ l.take (n - d.toNat)
  else l.drop (-d).toNat ++ List.replicate (min (-d).toNat n) pad

/-- Embedding of `nav_offset(nav, ds, dl)`: the navigation content shifted by
`(ds, dl)` into a NaN-filled frame of the same shape. -/
def nav_offset (nav : Grid) (ds dl : ℤ) : Grid :=
  shift1 nav.length dl (List.replicate (width nav) (none : Option ℚ))
    (nav.map (shift1 (width nav) ds none))

/-- Embedding of `data_offset(data, ds, dl)`: the data content kept in place,
with the border strips selected by the sign of `ds` / `dl` masked to NaN
(`mask[:, :ds]`, `mask[:, ds:]`, `mask[:dl, :]`, `mask[dl:, :]`). -/
def data_offset (data : Grid) (ds dl : ℤ) : Grid :=
  data.mapIdx (fun i row => row.mapIdx (fun j x =>
    if (0 < ds ∧ (j : ℤ) < ds) ∨ (ds < 0 ∧ (width data : ℤ) + ds ≤ (j : ℤ))
       ∨ (0 < dl ∧ (i : ℤ) < dl) ∨ (dl < 0 ∧ (data.length : ℤ) + dl ≤ (i : ℤ))
    then none else x))

/-- Embedding of `img_offset(arr, offset, is_data)`; `none` models the
`offset=False` no-offset state. -/
def img_offset (arr : Grid) (offset : Option (ℤ × ℤ)) (is_data : Bool) : Grid :=
  match offset with
  | none => arr
  | some (ds, dl) => if is_data then data_offset arr ds dl else nav_offset arr ds dl

/-! ## Contour tracing (`ssi/geometry/contour.py`) -/

/-- Embedding of `edges(cond)`: a pixel is an edge when it is true and at
least one 4-neighbor (out of bounds counting as false) is not. -/
def inMask (m : Mask) (l s : ℤ) : Bool :=
  decide (0 ≤ l) && decide (l < (m.length : ℤ)) && decide (0 ≤ s)
    && decide (s < (width m : ℤ)) && getPix m l.toNat s.toNat

/-- Edge extraction from a conditional mask (the four shifted differences of
the source, combined with or). -/
def edges (cond : Mask) : Mask :=
  cond.mapIdx (fun i row => row.mapIdx (fun j b =>
    b && (!(inMask cond ((i : ℤ) - 1) (j : ℤ)) || !(inMask cond (i : ℤ) ((j : ℤ) + 1))
      || !(inMask cond ((i : ℤ) + 1) (j : ℤ)) || !(inMask cond (i : ℤ) ((j : ℤ) - 1)))))

/-- The `DIRECTIONS` table: motion `(dl, ds)` and the direction order for the
next iteration of the clockwise circular permutation. -/
def DIRECTIONS : List ((ℤ × ℤ) × List ℕ) :=
  [(((-1), (-1)), [5, 6, 7, 0, 1, 2, 3, 4]),
   (((-1), 0), [6, 7, 0, 1, 2, 3, 4, 5]),
   (((-1), 1), [7, 0, 1, 2, 3, 4, 5, 6]),
   ((0, 1), [0, 1, 2, 3, 4, 5, 6, 7]),
   ((1, 1), [1, 2, 3, 4, 5, 6, 7, 0]),
   ((1, 0), [2, 3, 4, 5, 6, 7, 0, 1]),
   ((1, (-1)), [3, 4, 5, 6, 7, 0, 1, 2]),
   ((0, (-1)), [4, 5, 6, 7, 0, 1, 2, 3])]

/-- Default row used for an (unreachable) out-of-table direction index. -/
def dirDefault : (ℤ × ℤ) × List ℕ := (((-1), (-1)), [5, 6, 7, 0, 1, 2, 3, 4])

/-- Inner loop of the walk (`for dl, ds, v in DIRECTIONS[v]`): try the
directions in the given order; on the first admissible neighbor return it
with that row's next-iteration order, otherwise keep the last row's order. -/
def lsStep (m : Mask) (l s : ℕ) : List ℕ → List ℕ → Option (ℕ × ℕ) × List ℕ
  | [], carry => (none, carry)
  | d :: rest, _ =>
    let row := DIRECTIONS.getD d dirDefault
    if inMask m ((l : ℤ) + row.1.1) ((s : ℤ) + row.1.2) then
      (some (((l : ℤ) + row.1.1).toNat, ((s : ℤ) + row.1.2).toNat), row.2)
    else lsStep m l s rest row.2

/-- Outer loop of the walk (`for _ in range(npts)`), fuel-indexed: move if a
neighbor is found, append it, and stop when the current pixel is the start
pixel; with the fuel exhausted the path cannot be closed. -/
def lsLoop (m : Mask) (l0 s0 : ℕ) :
    ℕ → ℕ → ℕ → List ℕ → List ℕ → List ℕ → Except String (List ℕ × List ℕ)
  | 0, _, _, _, _, _ => .error "Path can not be closed property"
  | fuel + 1, l, s, v, lines, samples =>
    match lsStep m l s v [] with
    | (some (l2, s2), v2) =>
      if l2 = l0 ∧ s2 = s0 then .ok (lines ++ [l2], samples ++ [s2])
      else lsLoop m l0 s0 fuel l2 s2 v2 (lines ++ [l2]) (samples ++ [s2])
    | (none, v2) =>
      if l = l0 ∧ s = s0 then .ok (lines, samples)
      else lsLoop m l0 s0 fuel l s v2 lines samples

/-- First true index of a boolean row. -/
def firstTrueIn : List Bool → Option ℕ
  | [] => none
  | b :: t => if b then some 0 else (firstTrueIn t).map (· + 1)

/-- First true pixel in row-major scan order
(`np.unravel_index(np.argmax(cntr), cntr.shape)` guarded by `np.max`). -/
def firstTrue : Mask → Option (ℕ × ℕ)
  | [] => none
  | r :: t =>
    match firstTrueIn r with
    | some j => some (0, j)
    | none => (firstTrue t).map (fun p => (p.1 + 1, p.2))

/-- Number of true pixels, `np.sum(cntr)` on a boolean mask. -/
def countTrue (m : Mask) : ℕ := (m.map (fun r => r.count true)).sum

/-- Clearing of one pixel (`cntr[i, j] = b`); out-of-range writes are
dropped. -/
def setPix (m : Mask) (i j : ℕ) (b : Bool) : Mask :=
  m.set i ((m.getD i []).set j b)

/-- Clearing of all traced points (`cntr[lines, samples] = False`). -/
def clearPts : Mask → List (ℕ × ℕ) → Mask
  | m, [] => m
  | m, (i, j) :: t => clearPts (setPix m i j false) t

/-- Embedding of `ls_contour(cntr)`: extract one contour; the returned mask
is the input mask with the traced points removed. -/
def ls_contour (m : Mask) : Except String (List ℕ × List ℕ × Mask) :=
  match firstTrue m with
  | none => .error "The contour is empty"
  | some (l0, s0) =>
    match lsLoop m l0 s0 (2 * countTrue m) l0 s0 [0, 1, 2, 3, 4, 5, 6, 7] [l0] [s0] with
    | .error e => .error e
    | .ok (lines, samples) => .ok (lines, samples, clearPts m (lines.zip samples))

/-- Outer multi-contour loop of `ls_contours`, fuel-indexed by the initial
pixel count (`for _ in range(np.sum(cntr))` with a `Too many polygons` raise
when the range is exhausted without a break). -/
def ls_contours_go (threshold : ℕ) :
    ℕ → Mask → List (List ℕ × List ℕ) → Except String (List (List ℕ × List ℕ))
  | 0, _, _ => .error "Too many polygons in the contour."
  | fuel + 1, cntr, acc =>
    match ls_contour cntr with
    | .error e => .error e
    | .ok (lines, samples, cntr2) =>
      let acc2 := if threshold < lines.length then acc ++ [(lines, samples)] else acc
      if countTrue cntr2 = 0 ∨ countTrue cntr2 < threshold then .ok acc2
      else ls_contours_go threshold fuel cntr2 acc2

/-- Embedding of `ls_contours(cntr, threshold)`. -/
def ls_contours (cntr : Mask) (threshold : ℕ) : Except String (List (List ℕ × List ℕ)) :=
  ls_contours_go threshold (countTrue cntr) cntr []

/-- Masks visited by the `ls_contours` loop, in order (used to state the
hypothesis that every traceable contour of the input is short). -/
def ls_contours_masks (threshold : ℕ) : ℕ → Mask → List Mask
  | 0, _ => []
  | fuel + 1, cntr =>
    cntr ::
      (match ls_contour cntr with
       | .error _ => []
       | .ok (_, _, cntr2) =>
         if countTrue cntr2 = 0 ∨ countTrue cntr2 < threshold then []
         else ls_contours_masks threshold fuel cntr2)

/-- Check that one tracing step succeeds and stays within the length
threshold. -/
def contour_short (threshold : ℕ) (m : Mask) : Bool :=
  match ls_contour m with
  | .ok (lines, _, _) => lines.length ≤ threshold
  | .error _ => false

/-- Both coordinates move by at most one and the points differ:
8-connectivity of two pixels. -/
def adj8 (p q : ℕ × ℕ) : Bool :=
  decide (((p.1 : ℤ) - (q.1 : ℤ)).natAbs ≤ 1) && decide (((p.2 : ℤ) - (q.2 : ℤ)).natAbs ≤ 1)
    && decide (p ≠ q)

/-- 4-connectivity of two pixels: the coordinate deviations sum to one. -/
def adj4 (p q : ℕ × ℕ) : Bool :=
  decide (((p.1 : ℤ) - (q.1 : ℤ)).natAbs + ((p.2 : ℤ) - (q.2 : ℤ)).natAbs = 1)

/-- Adjacency of every successive pair of traced points. -/
def pairsAdj (lines samples : List ℕ) : Prop :=
  ∀ k, k + 1 < lines.length →
    adj8 (lines.getD k 0, samples.getD k 0) (lines.getD (k + 1) 0, samples.getD (k + 1) 0) = true

/-! ## ISIS cube decoding (`ssi/isis/isis.py`) -/

/-- Fuel-indexed splitting of a list into chunks of `n`. -/
def chunkGo {α : Type} (n : ℕ) : ℕ → List α → List (List α)
  | 0, _ => []
  | _, [] => []
  | fuel + 1, a :: t => ((a :: t).take n) :: chunkGo n fuel ((a :: t).drop n)

/-- Splitting of a list into chunks of `n` (row-major reshape step). -/
def chunkExact {α : Type} (n : ℕ) (l : List α) : List (List α) :=
  if n = 0 then [] else chunkGo n l.length l

/-- Embedding of `np.reshape(l, (a, b, c))`: fails unless the sizes agree
exactly, otherwise row-major chunking. -/
def np_reshape3 {α : Type} (l : List α) (a b c : ℕ) : Option (List (List (List α))) :=
  if l.length = a * b * c then some ((chunkExact (b * c) l).map (chunkExact c)) else none

/-- Transpose of a rectangular 2-D list with `c` columns (`dflt` is never
read on rectangular input). -/
def transposeRC {α : Type} (dflt : α) (c : ℕ) (m : List (List α)) : List (List α) :=
  (List.range c).map (fun j => m.map (fun row => row.getD j dflt))

/-- Embedding of `np.moveaxis(x, 1, 2)` on a 3-D array whose last two axes
are `b × c`: transpose every plane. -/
def moveax12 {α : Type} (dflt : α) (c : ℕ) (x : List (List (List α))) : List (List (List α)) :=
  x.map (transposeRC dflt c)

/-- Row-major flattening of a 3-D array. -/
def flat3 {α : Type} (x : List (List (List α))) : List α := (x.map List.flatten).flatten

/-- Embedding of `ISISCube._reshape`: direct reshape when the tile equals the
full extent, otherwise de-interleave through the tile grid (reshape to
tiles, stack in the samples direction, then in the lines direction). -/
def isis_reshape {α : Type} (dflt : α) (data : List α) (NB NL NS TL TS : ℕ) :
    Option (List (List (List α))) :=
  if TS = NS ∧ TL = NL then np_reshape3 data NB NL NS
  else
    (np_reshape3 data (data.length / (TL * TS)) TL TS).bind (fun tiled =>
      (np_reshape3 (flat3 (moveax12 dflt TS tiled)) (data.length / (TL * NS)) NS TL).bind
        (fun stacked => np_reshape3 (flat3 (moveax12 dflt TL stacked)) NB NL NS))

/-- Shape of a 3-D nested list is exactly `(a, b, c)`. -/
def Shape3 {α : Type} (x : List (List (List α))) (a b c : ℕ) : Prop :=
  x.length = a ∧ ∀ m ∈ x, m.length = b ∧ ∀ r ∈ m, r.length = c

/-- Computable binary maximum on ℚ (definitionally reducible form of
`max`). -/
def qmax (a b : ℚ) : ℚ := if a ≤ b then b else a

/-- Computable absolute value on ℚ (definitionally reducible form of
`|·|`). -/
def qabs (a : ℚ) : ℚ := if a < 0 then -a else a

/-- Embedding of `np.max` on a non-empty list. -/
def np_max (l : List ℚ) : ℚ := l.foldl qmax (l.headD 0)

/-- Embedding of `ISISCube._is_null` for a float pixel type: values whose
magnitude relative to the underflow or overflow limit reaches the
tolerance. -/
def is_null (U O tol v : ℚ) : Bool :=
  decide (tol ≤ qabs (v / U)) || decide (tol ≤ qabs (v / O))

/-- Decidable equality for `Except` results. -/
instance {ε α : Type} [DecidableEq ε] [DecidableEq α] : DecidableEq (Except ε α)
  | .error e, .error f =>
    if h : e = f then .isTrue (by rw [h]) else .isFalse (by simp [h])
  | .error _, .ok _ => .isFalse (by simp)
  | .ok _, .error _ => .isFalse (by simp)
  | .ok a, .ok b =>
    if h : a = b then .isTrue (by rw [h]) else .isFalse (by simp [h])

/-- Embedding of the float branch of `ISISCube._load_data` before reshaping:
affine rescale, saturated (underflow-coded) pixels replaced by the array
maximum of the rescaled data, then NULL-coded values replaced by NaN. -/
def load_float_data (raw : List ℚ) (mult base U O : ℚ) : List (Option ℚ) :=
  ((raw.map (fun r => r * mult + base)).map
      (fun v => if v = U then np_max (raw.map (fun r => r * mult + base)) else v)).map
    (fun v => if is_null U O (1 / 1000000) v then none else some v)

/-- Exact value of `np.finfo(np.float32).max`. -/
def f32max : ℚ := 340282346638528859811704183484516925440

/-- Exact value of `np.finfo(np.float32).min`. -/
def f32min : ℚ := -340282346638528859811704183484516925440

/-! ## Public pixel indexing (`ssi/img.py`, `ssi/pixel.py`) -/

/-- Errors raised by the `SSIPixel` coordinate setters. -/
inductive PixelErr
  | sampleRange (s NS : ℤ)
  | lineRange (l NL : ℤ)
deriving DecidableEq

/-- Embedding of `SSIPixel.__init__`: range-checked 1-based coordinates,
sample validated first. -/
def SSIPixel_mk (NS NL s l : ℤ) : Except PixelErr (ℤ × ℤ) :=
  if ¬(1 ≤ s ∧ s ≤ NS) then .error (.sampleRange s NS)
  else if ¬(1 ≤ l ∧ l ≤ NL) then .error (.lineRange l NL)
  else .ok (s, l)

/-- Embedding of `_parse(index, n)` for an integer index: 1-based bound
checks, returns the 0-based index. -/
def img_parse (index n : ℤ) : Except String ℤ :=
  if index < 1 then .error "Index must be > 1."
  else if n < index then .error "Index must be < n."
  else .ok (index - 1)

/-- Embedding of `IMG.__getitem__` for an `[sample, line]` pair of integers:
the line selects the storage row, the sample selects the column. -/
def img_getitem (rows : List (List ℚ)) (s l : ℤ) : Except String ℚ :=
  match img_parse l rows.length, img_parse s (width rows) with
  | .error e, _ => .error e
  | .ok _, .error e => .error e
  | .ok li, .ok si => .ok ((rows.getD li.toNat []).getD si.toNat 0)

/-! ## Helper lemmas -/

theorem getD_range_map {β : Type} (f : ℕ → β) {n i : ℕ} (d : β) (h : i < n) :
    ((List.range n).map f).getD i d = f i := by
  have hlen : i < ((List.range n).map f).length := by simpa using h
  rw [List.getD_eq_getElem _ _ hlen, List.getElem_map, List.getElem_range]

theorem getD_map_of_lt {β γ : Type} (f : β → γ) (l : List β) {i : ℕ} (d : γ) (dl : β)
    (h : i < l.length) : (l.map f).getD i d = f (l.getD i dl) := by
  have hlen : i < (l.map f).length := by simpa using h
  rw [List.getD_eq_getElem _ _ hlen, List.getElem_map, List.getD_eq_getElem _ _ h]

theorem getD_take_of_lt {α : Type} (l : List α) (k : ℕ) {m : ℕ} (d : α) (hm : m < k)
    (hml : m < l.length) : (l.take k).getD m d = l.getD m d := by
  have h1 : m < (l.take k).length := by
    simp only [List.length_take]
    omega
  rw [List.getD_eq_getElem _ _ h1, List.getElem_take, List.getD_eq_getElem _ _ hml]

theorem getD_drop_add {α : Type} (l : List α) (k : ℕ) {m : ℕ} (d : α) (h : k + m < l.length) :
    (l.drop k).getD m d = l.getD (k + m) d := by
  have h1 : m < (l.drop k).length := by
    simp only [List.length_drop]
    omega
  rw [List.getD_eq_getElem _ _ h1, List.getElem_drop, List.getD_eq_getElem _ _ h]

theorem getD_replicate_of_lt {α : Type} (x d : α) {n m : ℕ} (h : m < n) :
    (List.replicate n x).getD m d = x := by
  have h1 : m < (List.replicate n x).length := by simpa using h
  rw [List.getD_eq_getElem _ _ h1, List.getElem_replicate]

theorem getD_mem {α : Type} (l : List α) {i : ℕ} (d : α) (h : i < l.length) :
    l.getD i d ∈ l := by
  rw [List.getD_eq_getElem _ _ h]
  exact List.getElem_mem h

theorem getD_mapIdx {β γ : Type} (f : ℕ → β → γ) (l : List β) {i : ℕ} (d : γ) (dl : β)
    (h : i < l.length) : (l.mapIdx f).getD i d = f i (l.getD i dl) := by
  rw [List.mapIdx_eq_ofFn]
  have hlen : i < (List.ofFn fun k : Fin l.length => f (k : ℕ) (l.get k)).length := by
    simpa using h
  rw [List.getD_eq_getElem _ _ hlen, List.getElem_ofFn, List.getD_eq_getElem _ dl h]
  rfl

/-- Pointwise value of the one-dimensional shift: positions that come from
inside the source keep its values (displaced by `d`), the exposed border is
the padding. -/
theorem shift1_getD {α : Type} (n : ℕ) (d : ℤ) (pad dflt : α) (l : List α) (hl : l.length = n)
    {j : ℕ} (hj : j < n) :
    (shift1 n d pad l).getD j dflt =
      if 0 ≤ (j : ℤ) - d ∧ (j : ℤ) - d < (n : ℤ) then l.getD ((j : ℤ) - d).toNat dflt
      else pad := by
  unfold shift1
  split_ifs with hd hcond hcond
  · rw [List.getD_append_right _ _ _ _ (by simp only [List.length_replicate]; omega)]
    simp only [List.length_replicate]
    rw [getD_take_of_lt _ _ _ (by omega) (by omega),
      show ((j : ℤ) - d).toNat = j - min d.toNat n by omega]
  · rw [List.getD_append _ _ _ j (by simp only [List.length_replicate]; omega)]
    exact getD_replicate_of_lt _ _ (by omega)
  · rw [List.getD_append _ _ _ j (by simp only [List.length_drop]; omega)]
    rw [getD_drop_add _ _ _ (by omega), show ((j : ℤ) - d).toNat = (-d).toNat + j by omega]
  · rw [List.getD_append_right _ _ _ _ (by simp only [List.length_drop]; omega)]
    simp only [List.length_drop]
    exact getD_replicate_of_lt _ _ (by omega)

/-- Length preservation of the one-dimensional shift. -/
theorem shift1_length {α : Type} (n : ℕ) (d : ℤ) (pad : α) (l : List α) (hl : l.length = n) :
    (shift1 n d pad l).length = n := by
  unfold shift1
  split_ifs with hd
  · simp only [List.length_append, List.length_replicate, List.length_take, hl]
    omega
  · simp only [List.length_append, List.length_replicate, List.length_drop, hl]
    omega

/-! ## C2 (amended): float NULL/saturation sanitization, pointwise -/

/-- C2 (amended): after the affine rescale, a pixel equal to the underflow
sentinel becomes the array maximum and is then subject to the NULL test (so
it becomes NaN when the maximum itself is NULL-coded); every other pixel
becomes NaN when NULL-coded (magnitude at least `tol` relative to the
underflow/overflow limits) and is passed through unchanged otherwise. -/
theorem load_float_data_pointwise (raw : List ℚ) (mult base U O : ℚ) (i : ℕ)
    (hi : i < raw.length) :
    (load_float_data raw mult base U O).getD i none =
      (if raw.getD i 0 * mult + base = U then
        (if is_null U O (1 / 1000000) (np_max (raw.map (fun r => r * mult + base))) = true
         then none else some (np_max (raw.map (fun r => r * mult + base))))
       else if is_null U O (1 / 1000000) (raw.getD i 0 * mult + base) = true then none
       else some (raw.getD i 0 * mult + base)) := by
  unfold load_float_data
  have h1 : i < (raw.map (fun r => r * mult + base)).length := by simpa using hi
  have h2 : i < ((raw.map (fun r => r * mult + base)).map
      (fun v => if v = U then np_max (raw.map (fun r => r * mult + base)) else v)).length := by
    simpa using hi
  rw [getD_map_of_lt _ _ none (0 : ℚ) h2, getD_map_of_lt _ _ (0 : ℚ) (0 : ℚ) h1,
    getD_map_of_lt _ _ (0 : ℚ) (0 : ℚ) hi]
  by_cases h : raw.getD i 0 * mult + base = U
  · simp only [if_pos h]
  · simp only [if_neg h]

/-- Witness for C2 (amended) on the raster `[1, 2]` with limits `±10`. -/
theorem load_float_data_pointwise_witness :
    0 < [(1 : ℚ), 2].length ∧
    (load_float_data [(1 : ℚ), 2] 1 0 (-10) 10).getD 0 none =
      (if [(1 : ℚ), 2].getD 0 0 * 1 + 0 = -10 then
        (if is_null (-10) 10 (1 / 1000000) (np_max ([(1 : ℚ), 2].map (fun r => r * 1 + 0))) = true
         then none else some (np_max ([(1 : ℚ), 2].map (fun r => r * 1 + 0))))
       else if is_null (-10) 10 (1 / 1000000) ([(1 : ℚ), 2].getD 0 0 * 1 + 0) = true then none
       else some ([(1 : ℚ), 2].getD 0 0 * 1 + 0)) :=
  ⟨by norm_num, load_float_data_pointwise [(1 : ℚ), 2] 1 0 (-10) 10 0 (by norm_num)⟩

/-! ## C3 (amended): offset application in the two modes -/

/-- C3 (amended): in navigation mode (`is_data = false`) the content is
shifted by `(Δs, Δl)` with the exposed border filled with NaN; in data mode
(`is_data = true`) the content is not translated: the border strip exposed by
the offset is masked to NaN and every other pixel keeps its original value at
its original position. -/
theorem img_offset_modes (arr : Grid) (ds dl : ℤ) (i j : ℕ)
    (hrect : ∀ r ∈ arr, r.length = width arr) (hi : i < arr.length) (hj : j < width arr) :
    getg (img_offset arr (some (ds, dl)) false) i j =
      (if 0 ≤ (i : ℤ) - dl ∧ (i : ℤ) - dl < (arr.length : ℤ)
          ∧ 0 ≤ (j : ℤ) - ds ∧ (j : ℤ) - ds < (width arr : ℤ)
       then getg arr ((i : ℤ) - dl).toNat ((j : ℤ) - ds).toNat
       else none)
    ∧ getg (img_offset arr (some (ds, dl)) true) i j =
      (if (0 < ds ∧ (j : ℤ) < ds) ∨ (ds < 0 ∧ (width arr : ℤ) + ds ≤ (j : ℤ))
          ∨ (0 < dl ∧ (i : ℤ) < dl) ∨ (dl < 0 ∧ (arr.length : ℤ) + dl ≤ (i : ℤ))
       then none else getg arr i j) := by
  constructor
  · show getg (nav_offset arr ds dl) i j = _
    unfold getg nav_offset
    rw [shift1_getD _ _ _ _ _ (by simp) hi]
    by_cases hic : 0 ≤ (i : ℤ) - dl ∧ (i : ℤ) - dl < (arr.length : ℤ)
    · rw [if_pos hic]
      have hlt : ((i : ℤ) - dl).toNat < arr.length := by omega
      rw [getD_map_of_lt _ _ [] [] hlt]
      have hrow : (arr.getD ((i : ℤ) - dl).toNat []).length = width arr :=
        hrect _ (getD_mem _ _ hlt)
      rw [shift1_getD _ _ _ _ _ hrow hj]
      by_cases hjc : 0 ≤ (j : ℤ) - ds ∧ (j : ℤ) - ds < (width arr : ℤ)
      · rw [if_pos hjc, if_pos ⟨hic.1, hic.2, hjc.1, hjc.2⟩]
      · rw [if_neg hjc, if_neg (by tauto)]
    · rw [if_neg hic, if_neg (by tauto)]
      by_cases hjw : j < width arr
      · exact getD_replicate_of_lt _ _ hjw
      · omega
  · show getg (data_offset arr ds dl) i j = _
    unfold getg data_offset
    rw [getD_mapIdx _ _ [] [] hi]
    have hrow : (arr.getD i []).length = width arr := hrect _ (getD_mem _ _ hi)
    rw [getD_mapIdx _ _ none none (by omega)]

/-- Witness for C3 (amended) on a 2×2 grid with `(Δs, Δl) = (1, 0)` at pixel
`(0, 0)`. -/
theorem img_offset_modes_witness :
    ((∀ r ∈ ([[some 1, some 2], [some 3, some 4]] : Grid),
        r.length = width ([[some 1, some 2], [some 3, some 4]] : Grid))
      ∧ 0 < ([[some 1, some 2], [some 3, some 4]] : Grid).length
      ∧ 0 < width ([[some 1, some 2], [some 3, some 4]] : Grid))
    ∧ (getg (img_offset [[some 1, some 2], [some 3, some 4]] (some (1, 0)) false) 0 0 =
        (if 0 ≤ (0 : ℤ) - 0 ∧ (0 : ℤ) - 0 < (([[some 1, some 2], [some 3, some 4]] : Grid).length : ℤ)
            ∧ 0 ≤ (0 : ℤ) - 1
            ∧ (0 : ℤ) - 1 < (width ([[some 1, some 2], [some 3, some 4]] : Grid) : ℤ)
         then getg [[some 1, some 2], [some 3, some 4]] ((0 : ℤ) - 0).toNat ((0 : ℤ) - 1).toNat
         else none)
      ∧ getg (img_offset [[some 1, some 2], [some 3, some 4]] (some (1, 0)) true) 0 0 =
        (if (0 < (1 : ℤ) ∧ (0 : ℤ) < 1)
            ∨ ((1 : ℤ) < 0
              ∧ (width ([[some 1, some 2], [some 3, some 4]] : Grid) : ℤ) + 1 ≤ (0 : ℤ))
            ∨ (0 < (0 : ℤ) ∧ (0 : ℤ) < 0)
            ∨ ((0 : ℤ) < 0
              ∧ (([[some 1, some 2], [some 3, some 4]] : Grid).length : ℤ) + 0 ≤ (0 : ℤ))
         then none else getg [[some 1, some 2], [some 3, some 4]] 0 0)) :=
  ⟨⟨by decide, by decide, by decide⟩,
    img_offset_modes [[some 1, some 2], [some 3, some 4]] 1 0 0 0 (by decide) (by decide)
      (by decide)⟩

/-! ## C8: range-checked 1-based pixel access -/

/-- C8: for a cube with `1 ≤ NS` samples and `1 ≤ NL` lines the pixel
accessor succeeds exactly on samples in `[1, NS]` and lines in `[1, NL]`;
in particular `(1,1)` and `(NS, NL)` succeed while `(0, 1)` and
`(NS+1, 1)` raise a range error. -/
theorem pixel_range_check (NS NL : ℤ) (h1 : 1 ≤ NS) (h2 : 1 ≤ NL) :
    (∀ s l : ℤ, (∃ p, SSIPixel_mk NS NL s l = .ok p) ↔ (1 ≤ s ∧ s ≤ NS ∧ 1 ≤ l ∧ l ≤ NL))
    ∧ SSIPixel_mk NS NL 1 1 = .ok (1, 1)
    ∧ SSIPixel_mk NS NL NS NL = .ok (NS, NL)
    ∧ SSIPixel_mk NS NL 0 1 = .error (.sampleRange 0 NS)
    ∧ SSIPixel_mk NS NL (NS + 1) 1 = .error (.sampleRange (NS + 1) NS) := by
  refine ⟨fun s l => ?_, ?_, ?_, ?_, ?_⟩
  · unfold SSIPixel_mk
    by_cases ha : 1 ≤ s ∧ s ≤ NS
    · by_cases hb : 1 ≤ l ∧ l ≤ NL
      · rw [if_neg (not_not_intro ha), if_neg (not_not_intro hb)]
        exact ⟨fun _ => ⟨ha.1, ha.2, hb.1, hb.2⟩, fun _ => ⟨(s, l), rfl⟩⟩
      · rw [if_neg (not_not_intro ha), if_pos hb]
        exact ⟨fun ⟨_, hp⟩ => (nomatch hp), fun hb2 => absurd ⟨hb2.2.2.1, hb2.2.2.2⟩ hb⟩
    · rw [if_pos ha]
      exact ⟨fun ⟨_, hp⟩ => (nomatch hp), fun hb2 => absurd ⟨hb2.1, hb2.2.1⟩ ha⟩
  · unfold SSIPixel_mk
    rw [if_neg (by omega), if_neg (by omega)]
  · unfold SSIPixel_mk
    rw [if_neg (by omega), if_neg (by omega)]
  · unfold SSIPixel_mk
    rw [if_pos (by omega)]
  · unfold SSIPixel_mk
    rw [if_pos (by omega)]

/-- Witness for C8 at `NS = 2`, `NL = 3`. -/
theorem pixel_range_check_witness :
    (1 ≤ (2 : ℤ)) ∧ (1 ≤ (3 : ℤ)) ∧
    ((∀ s l : ℤ, (∃ p, SSIPixel_mk 2 3 s l = .ok p) ↔ (1 ≤ s ∧ s ≤ 2 ∧ 1 ≤ l ∧ l ≤ 3))
      ∧ SSIPixel_mk 2 3 1 1 = .ok (1, 1)
      ∧ SSIPixel_mk 2 3 2 3 = .ok (2, 3)
      ∧ SSIPixel_mk 2 3 0 1 = .error (.sampleRange 0 2)
      ∧ SSIPixel_mk 2 3 (2 + 1) 1 = .error (.sampleRange (2 + 1) 2)) :=
  ⟨by decide, by decide, pixel_range_check 2 3 (by decide) (by decide)⟩

/-! ## C9: public (sample, line) indexing is transposed and 1-based -/

/-- C9: for in-range 1-based `(s, l)`, `band[s, l]` returns the element at
0-based row `l - 1`, column `s - 1` of the underlying (line, sample)-ordered
storage. -/
theorem img_getitem_transposed (rows : List (List ℚ)) (s l : ℤ)
    (hs : 1 ≤ s ∧ s ≤ (width rows : ℤ)) (hl : 1 ≤ l ∧ l ≤ (rows.length : ℤ)) :
    img_getitem rows s l = .ok ((rows.getD (l - 1).toNat []).getD (s - 1).toNat 0) := by
  unfold img_getitem img_parse
  rw [if_neg (by omega), if_neg (by omega), if_neg (by omega), if_neg (by omega)]

/-- Witness for C9 on a 3×2 storage at `(s, l) = (2, 3)`. -/
theorem img_getitem_transposed_witness :
    ((1 ≤ (2 : ℤ) ∧ (2 : ℤ) ≤ (width [[(1 : ℚ), 2], [3, 4], [5, 6]] : ℤ))
      ∧ (1 ≤ (3 : ℤ) ∧ (3 : ℤ) ≤ (([[(1 : ℚ), 2], [3, 4], [5, 6]] : List (List ℚ)).length : ℤ)))
    ∧ img_getitem [[(1 : ℚ), 2], [3, 4], [5, 6]] 2 3 =
        .ok ((([[(1 : ℚ), 2], [3, 4], [5, 6]] : List (List ℚ)).getD ((3 : ℤ) - 1).toNat []).getD
          (((2 : ℤ) - 1)).toNat 0) :=
  ⟨⟨by decide, by decide⟩,
    img_getitem_transposed [[(1 : ℚ), 2], [3, 4], [5, 6]] 2 3 ⟨by decide, by decide⟩
      ⟨by decide, by decide⟩⟩

/-! ## C1: decoded cube shape -/

theorem chunkGo_spec {α : Type} (n : ℕ) (hn : 0 < n) (f : ℕ) :
    ∀ l : List α, n ∣ l.length → l.length ≤ f →
      (chunkGo n f l).length = l.length / n ∧ ∀ c ∈ chunkGo n f l, c.length = n := by
  induction f with
  | zero =>
    intro l hdvd hf
    have hl : l = [] := List.eq_nil_of_length_eq_zero (by omega)
    subst hl
    simp [chunkGo]
  | succ f ih =>
    intro l hdvd hf
    match l with
    | [] => simp [chunkGo]
    | a :: t =>
      have hlen : n ≤ (a :: t).length := Nat.le_of_dvd (by simp) hdvd
      have hdvd2 : n ∣ ((a :: t).drop n).length := by
        simp only [List.length_drop]
        exact Nat.dvd_sub' hdvd dvd_rfl
      have hle2 : ((a :: t).drop n).length ≤ f := by
        simp only [List.length_drop]
        omega
      obtain ⟨ihl, ihc⟩ := ih ((a :: t).drop n) hdvd2 hle2
      obtain ⟨k, hk⟩ := hdvd
      have hk1 : 1 ≤ k := by
        rcases Nat.eq_zero_or_pos k with h0 | h0
        · subst h0
          simp at hk
        · exact h0
      have hmul : n * k - n = n * (k - 1) := by
        obtain ⟨k2, rfl⟩ : ∃ k2, k = k2 + 1 := ⟨k - 1, by omega⟩
        simp [Nat.mul_succ]
      constructor
      · show ((a :: t).take n :: chunkGo n f ((a :: t).drop n)).length = _
        rw [List.length_cons, ihl]
        simp only [List.length_drop]
        rw [hk, hmul, Nat.mul_div_cancel_left _ hn, Nat.mul_div_cancel_left _ hn]
        omega
      · intro c hc
        rcases List.mem_cons.mp hc with hceq | hcm
        · subst hceq
          simp only [List.length_take]
          omega
        · exact ihc c hcm

theorem chunkExact_spec {α : Type} (n : ℕ) (hn : 0 < n) (l : List α) (hdvd : n ∣ l.length) :
    (chunkExact n l).length = l.length / n ∧ ∀ c ∈ chunkExact n l, c.length = n := by
  unfold chunkExact
  rw [if_neg (by omega)]
  exact chunkGo_spec n hn l.length l hdvd le_rfl

theorem np_reshape3_spec {α : Type} (l : List α) (a b c : ℕ) (hb : 0 < b) (hc : 0 < c)
    (hlen : l.length = a * b * c) :
    ∃ x, np_reshape3 l a b c = some x ∧ Shape3 x a b c := by
  have hbc : 0 < b * c := Nat.mul_pos hb hc
  have hdvd : (b * c) ∣ l.length := ⟨a, by rw [hlen]; ring⟩
  obtain ⟨h1, h2⟩ := chunkExact_spec (b * c) hbc l hdvd
  refine ⟨_, by unfold np_reshape3; rw [if_pos hlen], ?_, ?_⟩
  · simp only [List.length_map, h1, hlen]
    rw [mul_assoc, Nat.mul_div_cancel _ hbc]
  · intro m hm
    rw [List.mem_map] at hm
    obtain ⟨ch, hch, rfl⟩ := hm
    have hchlen : ch.length = b * c := h2 ch hch
    have hdvd2 : c ∣ ch.length := ⟨b, by rw [hchlen]; ring⟩
    obtain ⟨g1, g2⟩ := chunkExact_spec c hc ch hdvd2
    refine ⟨?_, g2⟩
    rw [g1, hchlen, Nat.mul_div_cancel _ hc]

theorem transposeRC_shape {α : Type} (dflt : α) (b c : ℕ) (m : List (List α))
    (hm : m.length = b) :
    (transposeRC dflt c m).length = c ∧ ∀ r ∈ transposeRC dflt c m, r.length = b := by
  unfold transposeRC
  refine ⟨by simp, ?_⟩
  intro r hr
  rw [List.mem_map] at hr
  obtain ⟨j, hj, rfl⟩ := hr
  simp [hm]

theorem moveax12_shape {α : Type} (dflt : α) (a b c : ℕ) (x : List (List (List α)))
    (hx : Shape3 x a b c) : Shape3 (moveax12 dflt c x) a c b := by
  unfold moveax12
  refine ⟨by simp [hx.1], ?_⟩
  intro m hm
  rw [List.mem_map] at hm
  obtain ⟨mm, hmm, rfl⟩ := hm
  exact transposeRC_shape dflt b c mm (hx.2 mm hmm).1

theorem length_flatten_of {α : Type} (m : List (List α)) (c : ℕ) (h : ∀ r ∈ m, r.length = c) :
    m.flatten.length = m.length * c := by
  induction m with
  | nil => simp
  | cons r t ih =>
    simp only [List.flatten_cons, List.length_append, List.length_cons]
    rw [h r (by simp), ih (fun x hx => h x (by simp [hx]))]
    ring

theorem flat3_length {α : Type} (x : List (List (List α))) (a b c : ℕ)
    (hx : Shape3 x a b c) : (flat3 x).length = a * b * c := by
  unfold flat3
  rw [length_flatten_of (x.map List.flatten) (b * c) ?inner]
  · rw [List.length_map, hx.1, mul_assoc]
  case inner =>
    intro r hr
    rw [List.mem_map] at hr
    obtain ⟨mm, hmm, rfl⟩ := hr
    obtain ⟨hb, hrows⟩ := hx.2 mm hmm
    rw [length_flatten_of mm c hrows, hb]

/-- C1: for a header declaring dimensions `(NB, NL, NS)` whose tile size
`(TL, TS)` tiles the raster exactly, `_reshape` succeeds on the
`NB*NL*NS`-element raster and the resulting cube has shape exactly
`(NB, NL, NS)`, in the direct branch (tile equals the full extent) as well as
in the de-interleaving branch. -/
theorem reshape_shape_correct {α : Type} (dflt : α) (data : List α) (NB NL NS TL TS : ℕ)
    (hlen : data.length = NB * NL * NS) (hL : 0 < NL) (hS : 0 < NS)
    (hTL : 0 < TL) (hTS : 0 < TS) (hdL : TL ∣ NL) (hdS : TS ∣ NS) :
    ∃ cube, isis_reshape dflt data NB NL NS TL TS = some cube ∧ Shape3 cube NB NL NS := by
  unfold isis_reshape
  by_cases hfull : TS = NS ∧ TL = NL
  · rw [if_pos hfull]
    exact np_reshape3_spec data NB NL NS hL hS hlen
  · rw [if_neg hfull]
    obtain ⟨u, hu⟩ := hdL
    obtain ⟨w, hw⟩ := hdS
    have e1 : data.length / (TL * TS) = NB * u * w := by
      rw [hlen, hu, hw, show NB * (TL * u) * (TS * w) = (NB * u * w) * (TL * TS) by ring]
      exact Nat.mul_div_cancel _ (Nat.mul_pos hTL hTS)
    have e2 : data.length / (TL * NS) = NB * u := by
      rw [hlen, hu, show NB * (TL * u) * NS = (NB * u) * (TL * NS) by ring]
      exact Nat.mul_div_cancel _ (Nat.mul_pos hTL hS)
    have hlen1 : data.length = (data.length / (TL * TS)) * TL * TS := by
      rw [e1, hlen, hu, hw]
      ring
    obtain ⟨tiled, htiled, hsh1⟩ :=
      np_reshape3_spec data (data.length / (TL * TS)) TL TS hTL hTS hlen1
    rw [htiled]
    simp only [Option.some_bind]
    have hmv1 := moveax12_shape dflt _ TL TS tiled hsh1
    have hlen2 : (flat3 (moveax12 dflt TS tiled)).length = (data.length / (TL * NS)) * NS * TL := by
      rw [flat3_length _ _ TS TL hmv1, e1, e2, hw]
      ring
    obtain ⟨stacked, hstacked, hsh2⟩ :=
      np_reshape3_spec _ (data.length / (TL * NS)) NS TL hS hTL hlen2
    rw [hstacked]
    simp only [Option.some_bind]
    have hmv2 := moveax12_shape dflt _ NS TL stacked hsh2
    have hlen3 : (flat3 (moveax12 dflt TL stacked)).length = NB * NL * NS := by
      rw [flat3_length _ _ TL NS hmv2, e2, hu]
      ring
    exact np_reshape3_spec _ NB NL NS hL hS hlen3

/-- Witness for C1 on a 1×2×2 cube stored with 1×1 tiles (the
de-interleaving branch). -/
theorem reshape_shape_correct_witness :
    (([(1 : ℚ), 2, 3, 4] : List ℚ).length = 1 * 2 * 2 ∧ 0 < 2 ∧ 0 < 2 ∧ 0 < 1 ∧ 0 < 1
      ∧ 1 ∣ 2 ∧ 1 ∣ 2)
    ∧ ∃ cube, isis_reshape (0 : ℚ) [(1 : ℚ), 2, 3, 4] 1 2 2 1 1 = some cube
        ∧ Shape3 cube 1 2 2 :=
  ⟨⟨by norm_num, by norm_num, by norm_num, by norm_num, by norm_num, by norm_num, by norm_num⟩,
    reshape_shape_correct (0 : ℚ) [(1 : ℚ), 2, 3, 4] 1 2 2 1 1 (by norm_num) (by norm_num)
      (by norm_num) (by norm_num) (by norm_num) (by norm_num) (by norm_num)⟩

/-! ## Contour-walk lemmas (C5, C6, C7, C10) -/

theorem dir_row_bounds (d : ℕ) :
    (DIRECTIONS.getD d dirDefault).1 ≠ (0, 0)
    ∧ (DIRECTIONS.getD d dirDefault).1.1.natAbs ≤ 1
    ∧ (DIRECTIONS.getD d dirDefault).1.2.natAbs ≤ 1 := by
  by_cases hd : d < 8
  · interval_cases d <;> decide
  · rw [List.getD_eq_default _ _ (by simp [DIRECTIONS]; omega)]
    decide

theorem inMask_bounds (m : Mask) (l s : ℤ) (h : inMask m l s = true) :
    0 ≤ l ∧ l < (m.length : ℤ) ∧ 0 ≤ s ∧ s < (width m : ℤ)
    ∧ getPix m l.toNat s.toNat = true := by
  unfold inMask at h
  simp only [Bool.and_eq_true, decide_eq_true_eq] at h
  exact ⟨h.1.1.1.1, h.1.1.1.2, h.1.1.2, h.1.2, h.2⟩

theorem lsStep_some (m : Mask) (l s : ℕ) (order carry : List ℕ) (l2 s2 : ℕ) (v2 : List ℕ)
    (h : lsStep m l s order carry = (some (l2, s2), v2)) :
    adj8 (l, s) (l2, s2) = true := by
  induction order generalizing carry with
  | nil => simp [lsStep] at h
  | cons d rest ih =>
    rw [lsStep] at h
    by_cases hIn : inMask m ((l : ℤ) + (DIRECTIONS.getD d dirDefault).1.1)
        ((s : ℤ) + (DIRECTIONS.getD d dirDefault).1.2) = true
    · rw [if_pos hIn] at h
      rw [Prod.mk.injEq] at h
      obtain ⟨hsome, _⟩ := h
      rw [Option.some_inj, Prod.mk.injEq] at hsome
      obtain ⟨hl2, hs2⟩ := hsome
      obtain ⟨hb1, hb2, hb3, hb4, _⟩ := inMask_bounds _ _ _ hIn
      obtain ⟨hne, ha1, ha2⟩ := dir_row_bounds d
      subst hl2
      subst hs2
      unfold adj8
      simp only [Bool.and_eq_true, decide_eq_true_eq]
      refine ⟨⟨by omega, by omega⟩, ?_⟩
      intro heq
      rw [Prod.mk.injEq] at heq
      apply hne
      rw [Prod.ext_iff]
      constructor
      · have := heq.1
        omega
      · have := heq.2
        omega
    · rw [if_neg hIn] at h
      exact ih _ h

theorem headD_append_of_ne {α : Type} (l l2 : List α) (d : α) (h : l ≠ []) :
    (l ++ l2).headD d = l.headD d := by
  cases l with
  | nil => exact absurd rfl h
  | cons a t => rfl

theorem getD_of_getLast? {α : Type} (l : List α) (x d : α) (h : l.getLast? = some x) :
    l.getD (l.length - 1) d = x := by
  have hne : l ≠ [] := by
    intro hn
    subst hn
    simp at h
  have hlt : l.length - 1 < l.length := by
    have := List.length_pos.mpr hne
    omega
  rw [List.getD_eq_getElem _ _ hlt]
  rw [List.getLast?_eq_getElem?, List.getElem?_eq_getElem hlt, Option.some_inj] at h
  exact h

theorem pairsAdj_append (lines samples : List ℕ) (l s l2 s2 : ℕ)
    (hlen : lines.length = samples.length)
    (hl : lines.getLast? = some l) (hs : samples.getLast? = some s)
    (hadj : pairsAdj lines samples) (hstep : adj8 (l, s) (l2, s2) = true) :
    pairsAdj (lines ++ [l2]) (samples ++ [s2]) := by
  intro k hk
  rw [List.length_append, List.length_cons, List.length_nil] at hk
  by_cases hkl : k + 1 < lines.length
  · rw [List.getD_append _ _ _ k (by omega), List.getD_append _ _ _ (k + 1) hkl,
      List.getD_append _ _ _ k (by omega), List.getD_append _ _ _ (k + 1) (by omega)]
    exact hadj k hkl
  · have hkeq : k + 1 = lines.length := by omega
    rw [List.getD_append _ _ _ k (by omega), List.getD_append _ _ _ k (by omega)]
    rw [List.getD_append_right _ _ _ _ (by omega), List.getD_append_right _ _ _ _ (by omega)]
    have e1 : lines.getD k 0 = l := by
      have := getD_of_getLast? lines l 0 hl
      rwa [show lines.length - 1 = k by omega] at this
    have e2 : samples.getD k 0 = s := by
      have := getD_of_getLast? samples s 0 hs
      rwa [show samples.length - 1 = k by omega] at this
    rw [e1, e2, show k + 1 - lines.length = 0 by omega,
      show k + 1 - samples.length = 0 by omega]
    exact hstep

theorem lsLoop_spec (m : Mask) (l0 s0 : ℕ) :
    ∀ (fuel l s : ℕ) (v lines samples : List ℕ),
      lines.length = samples.length →
      lines.headD 0 = l0 → samples.headD 0 = s0 →
      lines.getLast? = some l → samples.getLast? = some s →
      pairsAdj lines samples →
      (∀ LS SS, lsLoop m l0 s0 fuel l s v lines samples = .ok (LS, SS) →
        LS.length = SS.length ∧ LS.headD 0 = l0 ∧ SS.headD 0 = s0
        ∧ LS.getLast? = some l0 ∧ SS.getLast? = some s0 ∧ pairsAdj LS SS
        ∧ LS.length ≤ lines.length + fuel)
      ∧ (∀ e, lsLoop m l0 s0 fuel l s v lines samples = .error e →
          e = "Path can not be closed property") := by
  intro fuel
  induction fuel with
  | zero =>
    intro l s v lines samples hlen hh1 hh2 hl1 hl2 hadj
    constructor
    · intro LS SS h
      simp [lsLoop] at h
    · intro e h
      rw [lsLoop] at h
      injection h with h2
      exact h2.symm
  | succ fuel ih =>
    intro l s v lines samples hlen hh1 hh2 hl1 hl2 hadj
    have hne1 : lines ≠ [] := by
      intro hn
      subst hn
      simp at hl1
    have hne2 : samples ≠ [] := by
      intro hn
      subst hn
      simp at hl2
    obtain ⟨⟨mv, v2⟩, hstep⟩ : ∃ p, lsStep m l s v [] = p := ⟨_, rfl⟩
    rcases mv with _ | ⟨l2, s2⟩
    · have hred : lsLoop m l0 s0 (fuel + 1) l s v lines samples =
          if l = l0 ∧ s = s0 then Except.ok (lines, samples)
          else lsLoop m l0 s0 fuel l s v2 lines samples := by
        rw [lsLoop, hstep]
      rw [hred]
      by_cases hstop : l = l0 ∧ s = s0
      · rw [if_pos hstop]
        constructor
        · intro LS SS h
          rw [Except.ok.injEq, Prod.mk.injEq] at h
          obtain ⟨h3, h4⟩ := h
          subst h3
          subst h4
          exact ⟨hlen, hh1, hh2, by rw [hl1, hstop.1], by rw [hl2, hstop.2], hadj, by omega⟩
        · intro e h
          simp at h
      · rw [if_neg hstop]
        obtain ⟨ihok, iherr⟩ := ih l s v2 lines samples hlen hh1 hh2 hl1 hl2 hadj
        refine ⟨?_, iherr⟩
        intro LS SS h
        obtain ⟨c1, c2, c3, c4, c5, c6, c7⟩ := ihok LS SS h
        exact ⟨c1, c2, c3, c4, c5, c6, by omega⟩
    · have hred : lsLoop m l0 s0 (fuel + 1) l s v lines samples =
          if l2 = l0 ∧ s2 = s0 then Except.ok (lines ++ [l2], samples ++ [s2])
          else lsLoop m l0 s0 fuel l2 s2 v2 (lines ++ [l2]) (samples ++ [s2]) := by
        rw [lsLoop, hstep]
      rw [hred]
      have hadj2 : adj8 (l, s) (l2, s2) = true := lsStep_some m l s v [] l2 s2 v2 hstep
      have hlen2 : (lines ++ [l2]).length = (samples ++ [s2]).length := by
        simp [hlen]
      have hh1b : (lines ++ [l2]).headD 0 = l0 := by
        rw [headD_append_of_ne _ _ _ hne1]
        exact hh1
      have hh2b : (samples ++ [s2]).headD 0 = s0 := by
        rw [headD_append_of_ne _ _ _ hne2]
        exact hh2
      have hl1b : (lines ++ [l2]).getLast? = some l2 := List.getLast?_concat _
      have hl2b : (samples ++ [s2]).getLast? = some s2 := List.getLast?_concat _
      have hadjb : pairsAdj (lines ++ [l2]) (samples ++ [s2]) :=
        pairsAdj_append lines samples l s l2 s2 hlen hl1 hl2 hadj hadj2
      by_cases hstop : l2 = l0 ∧ s2 = s0
      · rw [if_pos hstop]
        constructor
        · intro LS SS h
          rw [Except.ok.injEq, Prod.mk.injEq] at h
          obtain ⟨h3, h4⟩ := h
          subst h3
          subst h4
          refine ⟨hlen2, hh1b, hh2b, by rw [hl1b, hstop.1], by rw [hl2b, hstop.2], hadjb, ?_⟩
          simp only [List.length_append, List.length_cons, List.length_nil]
          omega
        · intro e h
          simp at h
      · rw [if_neg hstop]
        obtain ⟨ihok, iherr⟩ :=
          ih l2 s2 v2 (lines ++ [l2]) (samples ++ [s2]) hlen2 hh1b hh2b hl1b hl2b hadjb
        refine ⟨?_, iherr⟩
        intro LS SS h
        obtain ⟨c1, c2, c3, c4, c5, c6, c7⟩ := ihok LS SS h
        refine ⟨c1, c2, c3, c4, c5, c6, ?_⟩
        simp only [List.length_append, List.length_cons, List.length_nil] at c7
        omega

theorem firstTrueIn_spec (r : List Bool) (j : ℕ) (h : firstTrueIn r = some j) :
    r.getD j false = true ∧ j < r.length := by
  induction r generalizing j with
  | nil => simp [firstTrueIn] at h
  | cons b t ih =>
    rw [firstTrueIn] at h
    by_cases hb : b = true
    · rw [if_pos hb, Option.some_inj] at h
      subst h
      simpa using hb
    · rw [if_neg hb, Option.map_eq_some'] at h
      obtain ⟨j2, hj2, hj⟩ := h
      subst hj
      obtain ⟨hv, hlt⟩ := ih j2 hj2
      exact ⟨by simpa using hv, by simpa using hlt⟩

theorem firstTrueIn_of_count (r : List Bool) (h : 0 < r.count true) :
    ∃ j, firstTrueIn r = some j := by
  induction r with
  | nil => simp at h
  | cons b t ih =>
    by_cases hb : b = true
    · exact ⟨0, by rw [firstTrueIn, if_pos hb]⟩
    · have hb2 : b = false := by
        cases b
        · rfl
        · exact absurd rfl hb
      subst hb2
      have hcnt : 0 < t.count true := by
        simpa [List.count_cons] using h
      obtain ⟨j2, hj2⟩ := ih hcnt
      exact ⟨j2 + 1, by rw [firstTrueIn, if_neg hb, hj2]; rfl⟩

theorem firstTrue_spec (m : Mask) (l0 s0 : ℕ) (h : firstTrue m = some (l0, s0)) :
    getPix m l0 s0 = true := by
  induction m generalizing l0 with
  | nil => simp [firstTrue] at h
  | cons r t ih =>
    rw [firstTrue] at h
    rcases hin : firstTrueIn r with _ | j
    · rw [hin, Option.map_eq_some'] at h
      obtain ⟨p, hp, hq⟩ := h
      rw [Prod.mk.injEq] at hq
      obtain ⟨hq1, hq2⟩ := hq
      subst hq2
      have hrec := ih p.1 hp
      cases l0 with
      | zero => omega
      | succ l1 =>
        have hl : p.1 = l1 := by omega
        rw [hl] at hrec
        simpa [getPix] using hrec
    · rw [hin, Option.some_inj, Prod.mk.injEq] at h
      obtain ⟨h1, h2⟩ := h
      subst h1
      subst h2
      have := (firstTrueIn_spec r _ hin).1
      simpa [getPix] using this

theorem countTrue_cons (r : List Bool) (t : Mask) :
    countTrue (r :: t) = r.count true + countTrue t := by
  simp [countTrue]

theorem firstTrue_of_countTrue (m : Mask) (h : 1 ≤ countTrue m) :
    ∃ p, firstTrue m = some p := by
  induction m with
  | nil => simp [countTrue] at h
  | cons r t ih =>
    rw [countTrue_cons] at h
    by_cases hr : 0 < r.count true
    · obtain ⟨j, hj⟩ := firstTrueIn_of_count r hr
      exact ⟨(0, j), by rw [firstTrue, hj]⟩
    · have hct : 1 ≤ countTrue t := by omega
      obtain ⟨⟨p1, p2⟩, hp⟩ := ih hct
      refine ⟨(p1 + 1, p2), ?_⟩
      rw [firstTrue]
      rcases hin : firstTrueIn r with _ | j
      · rw [hp]
        rfl
      · exact absurd (firstTrueIn_spec r j hin).1 (by
          intro hget
          have hmem : true ∈ r := by
            rw [← hget]
            exact getD_mem r false (firstTrueIn_spec r j hin).2
          exact hr (List.count_pos_iff.mpr hmem))

theorem getD_set_false (r : List Bool) (j j2 : ℕ) :
    (r.set j false).getD j2 false = if j = j2 then false else r.getD j2 false := by
  by_cases h : j = j2
  · subst h
    rw [if_pos rfl]
    by_cases h2 : j < r.length
    · rw [List.getD_eq_getElem?_getD, List.getElem?_set, if_pos rfl, if_pos h2]
      simp
    · rw [List.set_eq_of_length_le (by omega), List.getD_eq_default _ _ (by omega)]
  · rw [if_neg h, List.getD_eq_getElem?_getD, List.getElem?_set, if_neg h,
      ← List.getD_eq_getElem?_getD]

theorem getPix_setPix_false (m : Mask) (i j i2 j2 : ℕ) :
    getPix (setPix m i j false) i2 j2 = if i = i2 ∧ j = j2 then false else getPix m i2 j2 := by
  unfold getPix setPix
  rw [List.getD_eq_getElem?_getD (List.set m i ((m.getD i []).set j false)) i2 [],
    List.getElem?_set]
  by_cases hi : i = i2
  · subst hi
    rw [if_pos rfl]
    by_cases hlen : i < m.length
    · rw [if_pos hlen]
      simp only [Option.getD_some]
      rw [getD_set_false]
      by_cases hj : j = j2
      · subst hj
        simp
      · rw [if_neg hj, if_neg (by tauto)]
    · rw [if_neg hlen]
      simp only [Option.getD_none]
      rw [List.getD_eq_default _ _ (by omega : m.length ≤ i)]
      by_cases hj : j = j2 <;> simp [hj]
  · rw [if_neg hi, ← List.getD_eq_getElem?_getD, if_neg (by tauto)]

theorem getPix_clearPts (pts : List (ℕ × ℕ)) (m : Mask) (i j : ℕ) :
    getPix (clearPts m pts) i j = if (i, j) ∈ pts then false else getPix m i j := by
  induction pts generalizing m with
  | nil => simp [clearPts]
  | cons p rest ih =>
    obtain ⟨a, b⟩ := p
    rw [clearPts, ih]
    by_cases hmem : (i, j) ∈ rest
    · simp [hmem]
    · rw [if_neg hmem, getPix_setPix_false]
      by_cases hab : a = i ∧ b = j
      · rw [if_pos hab, if_pos (by simp [hab.1, hab.2])]
      · rw [if_neg hab, if_neg (by
          simp only [List.mem_cons, hmem, or_false, Prod.mk.injEq]
          tauto)]

theorem count_set_false (r : List Bool) (j : ℕ) :
    (r.set j false).count true ≤ r.count true
    ∧ (r.getD j false = true → (r.set j false).count true < r.count true) := by
  induction r generalizing j with
  | nil => simp
  | cons b tl ih =>
    cases j with
    | zero =>
      simp only [List.set_cons_zero, List.count_cons, List.getD_cons_zero]
      cases b <;> simp
    | succ j =>
      rw [List.set_cons_succ]
      simp only [List.count_cons, List.getD_cons_succ]
      obtain ⟨ih1, ih2⟩ := ih j
      constructor
      · omega
      · intro htrue
        have := ih2 htrue
        omega

theorem setPix_cons_zero (r : List Bool) (t : Mask) (j : ℕ) (b : Bool) :
    setPix (r :: t) 0 j b = r.set j b :: t := rfl

theorem setPix_cons_succ (r : List Bool) (t : Mask) (i j : ℕ) (b : Bool) :
    setPix (r :: t) (i + 1) j b = r :: setPix t i j b := rfl

theorem countTrue_setPix (m : Mask) (i j : ℕ) :
    countTrue (setPix m i j false) ≤ countTrue m
    ∧ (getPix m i j = true → countTrue (setPix m i j false) < countTrue m) := by
  induction m generalizing i with
  | nil => simp [setPix, countTrue, getPix]
  | cons r t ih =>
    cases i with
    | zero =>
      rw [setPix_cons_zero, countTrue_cons, countTrue_cons]
      obtain ⟨h1, h2⟩ := count_set_false r j
      constructor
      · omega
      · intro htrue
        have := h2 (by simpa [getPix] using htrue)
        omega
    | succ i =>
      rw [setPix_cons_succ, countTrue_cons, countTrue_cons]
      obtain ⟨h1, h2⟩ := ih i
      constructor
      · omega
      · intro htrue
        have := h2 (by simpa [getPix] using htrue)
        omega

theorem countTrue_clearPts_le (pts : List (ℕ × ℕ)) (m : Mask) :
    countTrue (clearPts m pts) ≤ countTrue m := by
  induction pts generalizing m with
  | nil => simp [clearPts]
  | cons p rest ih =>
    obtain ⟨a, b⟩ := p
    rw [clearPts]
    exact le_trans (ih _) (countTrue_setPix m a b).1

theorem countTrue_clearPts_lt (m : Mask) (a b : ℕ) (rest : List (ℕ × ℕ))
    (h : getPix m a b = true) :
    countTrue (clearPts m ((a, b) :: rest)) < countTrue m := by
  rw [clearPts]
  exact lt_of_le_of_lt (countTrue_clearPts_le rest _) ((countTrue_setPix m a b).2 h)

/-! ## C5, C6, C10: properties of one contour extraction -/

theorem ls_contour_eq_match (m : Mask) (l0 s0 : ℕ) (hft : firstTrue m = some (l0, s0)) :
    ls_contour m =
      (match lsLoop m l0 s0 (2 * countTrue m) l0 s0 [0, 1, 2, 3, 4, 5, 6, 7] [l0] [s0] with
       | .error e => .error e
       | .ok (lines, samples) => .ok (lines, samples, clearPts m (lines.zip samples))) := by
  unfold ls_contour
  rw [hft]

/-- C5 (amended): every pair of successive points of a traced contour is
8-connected-adjacent (each coordinate moves by at most one and the point
changes), and the point sequence always closes: the first point equals the
last point.  The length threshold of `ls_contours` never truncates a
sequence, it only discards whole contours. -/
theorem ls_contour_adj8_closed (m : Mask) (ls ss : List ℕ) (m2 : Mask)
    (h : ls_contour m = .ok (ls, ss, m2)) :
    pairsAdj ls ss ∧ ls ≠ [] ∧ ls.getLast? = some (ls.headD 0)
    ∧ ss.getLast? = some (ss.headD 0) ∧ ls.length = ss.length := by
  rcases hft : firstTrue m with _ | ⟨l0, s0⟩
  · unfold ls_contour at h
    rw [hft] at h
    simp at h
  · rw [ls_contour_eq_match m l0 s0 hft] at h
    rcases hres : lsLoop m l0 s0 (2 * countTrue m) l0 s0 [0, 1, 2, 3, 4, 5, 6, 7] [l0] [s0]
      with e | ⟨lines, samples⟩
    · rw [hres] at h
      simp at h
    · rw [hres] at h
      simp only [Except.ok.injEq, Prod.mk.injEq] at h
      obtain ⟨rfl, rfl, rfl⟩ := h
      obtain ⟨lok, _⟩ := lsLoop_spec m l0 s0 (2 * countTrue m) l0 s0 [0, 1, 2, 3, 4, 5, 6, 7]
        [l0] [s0] rfl rfl rfl rfl rfl (fun k hk => absurd hk (by simp))
      obtain ⟨c1, c2, c3, c4, c5, c6, _⟩ := lok lines samples hres
      have hne : lines ≠ [] := by
        intro hn
        subst hn
        simp at c4
      exact ⟨c6, hne, by rw [c2, c4], by rw [c3, c5], c1⟩

/-- Witness for C5 (amended) on the edge mask of the diagonal condition. -/
theorem ls_contour_adj8_closed_witness :
    ls_contour (edges [[true, false], [false, true]])
        = .ok ([0, 1, 0], ([0, 1, 0], [[false, false], [false, false]]))
    ∧ (pairsAdj [0, 1, 0] [0, 1, 0] ∧ ([0, 1, 0] : List ℕ) ≠ []
      ∧ ([0, 1, 0] : List ℕ).getLast? = some (([0, 1, 0] : List ℕ).headD 0)
      ∧ ([0, 1, 0] : List ℕ).getLast? = some (([0, 1, 0] : List ℕ).headD 0)
      ∧ ([0, 1, 0] : List ℕ).length = ([0, 1, 0] : List ℕ).length) :=
  ⟨by decide,
    ls_contour_adj8_closed (edges [[true, false], [false, true]]) [0, 1, 0] [0, 1, 0]
      [[false, false], [false, false]] (by decide)⟩

/-- C6: on a mask with at least one edge pixel the walk starts at the first
true pixel in row-major scan order, every normal termination has returned to
that start pixel (the contour ends where it began), the number of traced
points never exceeds `2 * pixelcount + 1`, and the only possible failure is
the unclosable-path error. -/
theorem ls_contour_start_terminate (m : Mask) (hcnt : 1 ≤ countTrue m) :
    (∀ ls ss m2, ls_contour m = .ok (ls, ss, m2) →
      firstTrue m = some (ls.headD 0, ss.headD 0)
      ∧ ls.getLast? = some (ls.headD 0) ∧ ss.getLast? = some (ss.headD 0)
      ∧ ls.length = ss.length ∧ ls.length ≤ 2 * countTrue m + 1)
    ∧ (∀ e, ls_contour m = .error e → e = "Path can not be closed property") := by
  obtain ⟨⟨l0, s0⟩, hft⟩ := firstTrue_of_countTrue m hcnt
  obtain ⟨lok, lerr⟩ := lsLoop_spec m l0 s0 (2 * countTrue m) l0 s0 [0, 1, 2, 3, 4, 5, 6, 7]
    [l0] [s0] rfl rfl rfl rfl rfl (fun k hk => absurd hk (by simp))
  constructor
  · intro ls ss m2 h
    rw [ls_contour_eq_match m l0 s0 hft] at h
    rcases hres : lsLoop m l0 s0 (2 * countTrue m) l0 s0 [0, 1, 2, 3, 4, 5, 6, 7] [l0] [s0]
      with e | ⟨lines, samples⟩
    · rw [hres] at h
      simp at h
    · rw [hres] at h
      simp only [Except.ok.injEq, Prod.mk.injEq] at h
      obtain ⟨rfl, rfl, rfl⟩ := h
      obtain ⟨c1, c2, c3, c4, c5, _, c7⟩ := lok lines samples hres
      refine ⟨by rw [c2, c3]; exact hft, by rw [c2, c4], by rw [c3, c5], c1, ?_⟩
      simp only [List.length_cons, List.length_nil] at c7
      omega
  · intro e h
    rw [ls_contour_eq_match m l0 s0 hft] at h
    rcases hres : lsLoop m l0 s0 (2 * countTrue m) l0 s0 [0, 1, 2, 3, 4, 5, 6, 7] [l0] [s0]
      with e2 | ⟨lines, samples⟩
    · rw [hres] at h
      simp only [Except.error.injEq] at h
      subst h
      exact lerr e2 hres
    · rw [hres] at h
      simp at h

/-- Witness for C6 on the one-pixel mask. -/
theorem ls_contour_start_terminate_witness :
    1 ≤ countTrue [[true]] ∧
    ((∀ ls ss m2, ls_contour [[true]] = .ok (ls, ss, m2) →
      firstTrue [[true]] = some (ls.headD 0, ss.headD 0)
      ∧ ls.getLast? = some (ls.headD 0) ∧ ss.getLast? = some (ss.headD 0)
      ∧ ls.length = ss.length ∧ ls.length ≤ 2 * countTrue [[true]] + 1)
    ∧ (∀ e, ls_contour [[true]] = .error e → e = "Path can not be closed property")) :=
  ⟨by decide, ls_contour_start_terminate [[true]] (by decide)⟩

/-- C10: the mask returned by one contour extraction is the input mask with
exactly the traced (line, sample) points cleared to `False`; every pixel off
the contour keeps its previous value.  The Python in-place update (fancy
index assignment on the caller's array, which is also the returned array) is
modelled by this explicit state passing. -/
theorem ls_contour_mask_update (m : Mask) (ls ss : List ℕ) (m2 : Mask)
    (h : ls_contour m = .ok (ls, ss, m2)) (i j : ℕ) :
    getPix m2 i j = if (i, j) ∈ ls.zip ss then false else getPix m i j := by
  rcases hft : firstTrue m with _ | ⟨l0, s0⟩
  · unfold ls_contour at h
    rw [hft] at h
    simp at h
  · rw [ls_contour_eq_match m l0 s0 hft] at h
    rcases hres : lsLoop m l0 s0 (2 * countTrue m) l0 s0 [0, 1, 2, 3, 4, 5, 6, 7] [l0] [s0]
      with e | ⟨lines, samples⟩
    · rw [hres] at h
      simp at h
    · rw [hres] at h
      simp only [Except.ok.injEq, Prod.mk.injEq] at h
      obtain ⟨rfl, rfl, rfl⟩ := h
      exact getPix_clearPts (lines.zip samples) m i j

/-- Witness for C10 on the one-pixel mask at `(0, 0)`. -/
theorem ls_contour_mask_update_witness :
    ls_contour [[true]] = .ok ([0], ([0], [[false]]))
    ∧ getPix [[false]] 0 0 =
        if ((0 : ℕ), (0 : ℕ)) ∈ ([0] : List ℕ).zip [0] then false else getPix [[true]] 0 0 :=
  ⟨by decide, ls_contour_mask_update [[true]] [0] [0] [[false]] (by decide) 0 0⟩

/-! ## C7: all traceable contours below the threshold -/

theorem ls_contour_count_lt (m : Mask) (ls ss : List ℕ) (m2 : Mask)
    (h : ls_contour m = .ok (ls, ss, m2)) : countTrue m2 < countTrue m := by
  rcases hft : firstTrue m with _ | ⟨l0, s0⟩
  · unfold ls_contour at h
    rw [hft] at h
    simp at h
  · rw [ls_contour_eq_match m l0 s0 hft] at h
    rcases hres : lsLoop m l0 s0 (2 * countTrue m) l0 s0 [0, 1, 2, 3, 4, 5, 6, 7] [l0] [s0]
      with e | ⟨lines, samples⟩
    · rw [hres] at h
      simp at h
    · rw [hres] at h
      simp only [Except.ok.injEq, Prod.mk.injEq] at h
      obtain ⟨rfl, rfl, rfl⟩ := h
      obtain ⟨lok, _⟩ := lsLoop_spec m l0 s0 (2 * countTrue m) l0 s0 [0, 1, 2, 3, 4, 5, 6, 7]
        [l0] [s0] rfl rfl rfl rfl rfl (fun k hk => absurd hk (by simp))
      obtain ⟨c1, c2, c3, c4, c5, _, _⟩ := lok lines samples hres
      have hpix : getPix m l0 s0 = true := firstTrue_spec m l0 s0 hft
      rcases lines with _ | ⟨a, t1⟩
      · simp at c4
      rcases samples with _ | ⟨b, t2⟩
      · simp at c5
      have ha : a = l0 := by simpa using c2
      have hb : b = s0 := by simpa using c3
      subst ha
      subst hb
      exact countTrue_clearPts_lt m a b (t1.zip t2) hpix

theorem ls_contours_go_empty (threshold : ℕ) :
    ∀ (fuel : ℕ) (cntr : Mask) (acc : List (List ℕ × List ℕ)),
      1 ≤ countTrue cntr → countTrue cntr ≤ fuel →
      (∀ mm ∈ ls_contours_masks threshold fuel cntr, contour_short threshold mm = true) →
      ls_contours_go threshold fuel cntr acc = .ok acc := by
  intro fuel
  induction fuel with
  | zero =>
    intro cntr acc h1 h2 _
    omega
  | succ fuel ih =>
    intro cntr acc h1 h2 hshort
    have hhead : contour_short threshold cntr = true := by
      apply hshort
      rw [ls_contours_masks]
      exact List.mem_cons_self _ _
    unfold contour_short at hhead
    rcases hc : ls_contour cntr with e | ⟨lines, samples, cntr2⟩
    · rw [hc] at hhead
      simp at hhead
    · rw [hc] at hhead
      have hlen : lines.length ≤ threshold := by simpa using hhead
      have hnl : ¬ threshold < lines.length := by omega
      have hred : ls_contours_go threshold (fuel + 1) cntr acc =
          if countTrue cntr2 = 0 ∨ countTrue cntr2 < threshold then .ok acc
          else ls_contours_go threshold fuel cntr2 acc := by
        rw [ls_contours_go, hc]
        simp [hnl]
      rw [hred]
      have hdec : countTrue cntr2 < countTrue cntr := ls_contour_count_lt cntr lines samples cntr2 hc
      by_cases hbr : countTrue cntr2 = 0 ∨ countTrue cntr2 < threshold
      · rw [if_pos hbr]
      · rw [if_neg hbr]
        have hmasks : ls_contours_masks threshold (fuel + 1) cntr =
            cntr :: ls_contours_masks threshold fuel cntr2 := by
          rw [ls_contours_masks, hc]
          simp [hbr]
        apply ih cntr2 acc (by omega) (by omega)
        intro mm hmm
        apply hshort
        rw [hmasks]
        exact List.mem_cons_of_mem _ hmm

/-- C7 (amended): on a non-empty edge mask all of whose traceable contours
have a point count not exceeding the threshold, `ls_contours` returns the
empty list instead of raising. -/
theorem ls_contours_all_short_empty (cntr : Mask) (threshold : ℕ)
    (h1 : 1 ≤ countTrue cntr)
    (h2 : ∀ mm ∈ ls_contours_masks threshold (countTrue cntr) cntr,
        contour_short threshold mm = true) :
    ls_contours cntr threshold = .ok [] := by
  unfold ls_contours
  exact ls_contours_go_empty threshold (countTrue cntr) cntr [] h1 le_rfl h2

/-- Witness for C7 (amended): a single pixel, threshold 5. -/
theorem ls_contours_all_short_empty_witness :
    (1 ≤ countTrue [[true]]
      ∧ ∀ mm ∈ ls_contours_masks 5 (countTrue [[true]]) [[true]], contour_short 5 mm = true)
    ∧ ls_contours [[true]] 5 = .ok [] :=
  ⟨⟨by decide, by decide⟩, ls_contours_all_short_empty [[true]] 5 (by decide) (by decide)⟩

/-! ## C4: cross-correlation registration -/

theorem argmaxFirst_lt_length (l : List ℚ) (h : l ≠ []) : argmaxFirst l < l.length := by
  induction l with
  | nil => exact absurd rfl h
  | cons x t ih =>
    cases t with
    | nil => simp [argmaxFirst]
    | cons y tt =>
      rw [argmaxFirst]
      split_ifs
      · have := ih (by simp)
        simp only [List.length_cons] at this ⊢
        omega
      · simp

theorem argmaxFirst_eq_of_strict (l : List ℚ) (i : ℕ) (hi : i < l.length)
    (h : ∀ j, j < l.length → j ≠ i → l.getD j 0 < l.getD i 0) : argmaxFirst l = i := by
  induction l generalizing i with
  | nil => simp at hi
  | cons x t ih =>
    cases t with
    | nil =>
      have hz : i = 0 := by
        simp only [List.length_cons, List.length_nil] at hi
        omega
      subst hz
      rfl
    | cons y tt =>
      rw [argmaxFirst]
      have hlt := argmaxFirst_lt_length (y :: tt) (by simp)
      cases i with
      | zero =>
        have hmax : (y :: tt).getD (argmaxFirst (y :: tt)) 0 < x := by
          have := h (argmaxFirst (y :: tt) + 1)
            (by simp only [List.length_cons] at hlt ⊢; omega) (by omega)
          simpa using this
        rw [if_neg (not_lt.mpr (le_of_lt hmax))]
      | succ i2 =>
        have hi2 : i2 < (y :: tt).length := by
          simp only [List.length_cons] at hi ⊢
          omega
        have harg : argmaxFirst (y :: tt) = i2 := by
          apply ih i2 hi2
          intro j hj hne
          have := h (j + 1) (by simp only [List.length_cons] at hj ⊢; omega) (by omega)
          simpa using this
        rw [harg]
        have hx : x < (y :: tt).getD i2 0 := by
          have := h 0 (by simp) (by omega)
          simpa using this
        rw [if_pos hx]

theorem argmaxFirst_ties (l : List ℚ) :
    ∀ j, j < argmaxFirst l → l.getD j 0 < l.getD (argmaxFirst l) 0 := by
  induction l with
  | nil =>
    intro j hj
    simp [argmaxFirst] at hj
  | cons x t ih =>
    cases t with
    | nil =>
      intro j hj
      simp [argmaxFirst] at hj
    | cons y tt =>
      intro j hj
      rw [argmaxFirst] at hj ⊢
      by_cases hcond : x < (y :: tt).getD (argmaxFirst (y :: tt)) 0
      · rw [if_pos hcond] at hj ⊢
        cases j with
        | zero => simpa using hcond
        | succ j2 =>
          have := ih j2 (by omega)
          simpa using this
      · rw [if_neg hcond] at hj
        omega

theorem sum_range_map (f : ℕ → ℚ) (n : ℕ) :
    ((List.range n).map f).sum = ∑ k ∈ Finset.range n, f k := by
  induction n with
  | zero => simp
  | succ n ih =>
    rw [List.range_succ, List.map_append, List.sum_append, Finset.sum_range_succ, ih]
    simp

theorem correlateSame_length (a v : List ℚ) : (correlateSame a v).length = a.length := by
  simp [correlateSame]

theorem correlateSame_getD (a v : List ℚ) (i : ℕ) (hi : i < a.length) :
    (correlateSame a v).getD i 0 =
      ∑ n ∈ Finset.range a.length,
        a.getD n 0 * qAt v ((n : ℤ) - (i : ℤ) + ((a.length / 2 : ℕ) : ℤ)) := by
  unfold correlateSame
  rw [getD_range_map _ 0 hi]
  exact sum_range_map _ _

/-- Core of C4: for a non-negative data profile whose support is exactly the
navigation indicator (an unshifted pair), the same-mode cross-correlation has
a strict maximum at the central lag, so the first argmax is `N / 2`. -/
theorem corrCenter (d : List ℚ) (ind : List Bool)
    (hlen : d.length = ind.length)
    (hpos : ∀ k, k < d.length → 0 ≤ d.getD k 0)
    (hsupp : ∀ k, k < d.length → (ind.getD k false = true ↔ 0 < d.getD k 0))
    (hex : ∃ k, k < d.length ∧ 0 < d.getD k 0) :
    argmaxFirst (correlateSame (ind.map boolToQ) d) = ind.length / 2 := by
  set N := ind.length with hN
  have hdN : d.length = N := by omega
  have hNpos : 0 < N := by
    obtain ⟨k, hk, _⟩ := hex
    omega
  have hmaplen : (ind.map boolToQ).length = N := by simp [hN]
  have hclen : (correlateSame (ind.map boolToQ) d).length = N := by
    rw [correlateSame_length, hmaplen]
  have hval : ∀ i, i < N → (correlateSame (ind.map boolToQ) d).getD i 0 =
      ∑ n ∈ Finset.range N,
        boolToQ (ind.getD n false) * qAt d ((n : ℤ) - (i : ℤ) + ((N / 2 : ℕ) : ℤ)) := by
    intro i hi
    rw [correlateSame_getD _ _ i (by rw [hmaplen]; exact hi), hmaplen]
    refine Finset.sum_congr rfl ?_
    intro n hn
    rw [Finset.mem_range] at hn
    rw [getD_map_of_lt boolToQ ind 0 false (by omega)]
  set S := ∑ m ∈ Finset.range N, d.getD m 0 with hS
  have hA : (correlateSame (ind.map boolToQ) d).getD (N / 2) 0 = S := by
    rw [hval (N / 2) (by omega)]
    refine Finset.sum_congr rfl ?_
    intro n hn
    rw [Finset.mem_range] at hn
    rw [show (n : ℤ) - ((N / 2 : ℕ) : ℤ) + ((N / 2 : ℕ) : ℤ) = (n : ℤ) by ring]
    have hq : qAt d (n : ℤ) = d.getD n 0 := by
      unfold qAt
      rw [if_pos (by omega)]
      simp
    rw [hq]
    by_cases hb : ind.getD n false = true
    · rw [hb]
      simp [boolToQ]
    · have hb2 : ind.getD n false = false := by
        cases hbv : ind.getD n false
        · rfl
        · exact absurd hbv hb
      rw [hb2]
      have hz : d.getD n 0 = 0 := by
        by_contra hne
        have hlt : 0 < d.getD n 0 := lt_of_le_of_ne (hpos n (by omega)) (Ne.symm hne)
        exact hb ((hsupp n (by omega)).mpr hlt)
      rw [hz]
      simp [boolToQ]
  have hB : ∀ i, i < N → i ≠ N / 2 →
      (correlateSame (ind.map boolToQ) d).getD i 0 < S := by
    intro i hi hnei
    set δ : ℤ := ((N / 2 : ℕ) : ℤ) - (i : ℤ) with hδ
    set supp := (Finset.range N).filter (fun k => 0 < d.getD k 0) with hsuppF
    have hsne : supp.Nonempty := by
      obtain ⟨k, hk1, hk2⟩ := hex
      exact ⟨k, Finset.mem_filter.mpr ⟨Finset.mem_range.mpr (by omega), hk2⟩⟩
    set mstar := if 0 < δ then supp.min' hsne else supp.max' hsne with hmstar
    have hmem : mstar ∈ supp := by
      rw [hmstar]
      split_ifs
      · exact supp.min'_mem hsne
      · exact supp.max'_mem hsne
    have hmlt : mstar < N := Finset.mem_range.mp (Finset.mem_filter.mp hmem).1
    have hmpos : 0 < d.getD mstar 0 := (Finset.mem_filter.mp hmem).2
    have hsum1 : (correlateSame (ind.map boolToQ) d).getD i 0 =
        ∑ n ∈ Finset.range N,
          (if ind.getD n false = true ∧ 0 ≤ (n : ℤ) + δ ∧ (n : ℤ) + δ < (N : ℤ)
           then d.getD ((n : ℤ) + δ).toNat 0 else 0) := by
      rw [hval i hi]
      refine Finset.sum_congr rfl ?_
      intro n hn
      rw [Finset.mem_range] at hn
      rw [show (n : ℤ) - (i : ℤ) + ((N / 2 : ℕ) : ℤ) = (n : ℤ) + δ by rw [hδ]; ring]
      by_cases hb : ind.getD n false = true
      · rw [hb]
        by_cases hr : 0 ≤ (n : ℤ) + δ ∧ (n : ℤ) + δ < (N : ℤ)
        · rw [if_pos ⟨rfl, hr⟩]
          unfold qAt
          rw [if_pos (by omega)]
          simp [boolToQ]
        · rw [if_neg (fun hPn => hr ⟨hPn.2.1, hPn.2.2⟩)]
          unfold qAt
          rw [if_neg (by omega)]
          simp [boolToQ]
      · have hb2 : ind.getD n false = false := by
          cases hbv : ind.getD n false
          · rfl
          · exact absurd hbv hb
        rw [hb2, if_neg (fun hPn => (Bool.noConfusion hPn.1 : False))]
        simp [boolToQ]
    rw [hsum1, ← Finset.sum_filter]
    have hinj : ∀ x ∈ (Finset.range N).filter
        (fun n => ind.getD n false = true ∧ 0 ≤ (n : ℤ) + δ ∧ (n : ℤ) + δ < (N : ℤ)),
        ∀ y ∈ (Finset.range N).filter
        (fun n => ind.getD n false = true ∧ 0 ≤ (n : ℤ) + δ ∧ (n : ℤ) + δ < (N : ℤ)),
        ((x : ℤ) + δ).toNat = ((y : ℤ) + δ).toNat → x = y := by
      intro x hx y hy hxy
      have hx2 := (Finset.mem_filter.mp hx).2
      have hy2 := (Finset.mem_filter.mp hy).2
      omega
    have himg : ∑ n ∈ (Finset.range N).filter
        (fun n => ind.getD n false = true ∧ 0 ≤ (n : ℤ) + δ ∧ (n : ℤ) + δ < (N : ℤ)),
          d.getD ((n : ℤ) + δ).toNat 0 =
        ∑ m ∈ ((Finset.range N).filter
          (fun n => ind.getD n false = true ∧ 0 ≤ (n : ℤ) + δ ∧ (n : ℤ) + δ < (N : ℤ))).image
            (fun (n : ℕ) => ((n : ℤ) + δ).toNat), d.getD m 0 :=
      (@Finset.sum_image ℕ ℚ ℕ (fun m => d.getD m 0) _ _
        ((Finset.range N).filter
          (fun n => ind.getD n false = true ∧ 0 ≤ (n : ℤ) + δ ∧ (n : ℤ) + δ < (N : ℤ)))
        (fun (n : ℕ) => ((n : ℤ) + δ).toNat) hinj).symm
    rw [himg]
    have hsub : ((Finset.range N).filter
        (fun n => ind.getD n false = true ∧ 0 ≤ (n : ℤ) + δ ∧ (n : ℤ) + δ < (N : ℤ))).image
          (fun (n : ℕ) => ((n : ℤ) + δ).toNat) ⊆ (Finset.range N).erase mstar := by
      intro m hm
      rw [Finset.mem_image] at hm
      obtain ⟨n, hn, hgn⟩ := hm
      obtain ⟨hnr0, hnP⟩ := Finset.mem_filter.mp hn
      have hnr : n < N := Finset.mem_range.mp hnr0
      obtain ⟨hind, hge, hlt⟩ := hnP
      have hmval : (m : ℤ) = (n : ℤ) + δ := by omega
      rw [Finset.mem_erase]
      refine ⟨?_, Finset.mem_range.mpr (by omega)⟩
      intro heq
      subst heq
      have hnsupp : n ∈ supp := by
        rw [hsuppF]
        exact Finset.mem_filter.mpr ⟨Finset.mem_range.mpr hnr, (hsupp n (by omega)).mp hind⟩
      by_cases hdpos : 0 < δ
      · have hmin : mstar ≤ n := by
          rw [hmstar, if_pos hdpos]
          exact Finset.min'_le supp n hnsupp
        omega
      · have hmax : n ≤ mstar := by
          rw [hmstar, if_neg hdpos]
          exact Finset.le_max' supp n hnsupp
        have hdneg : δ < 0 := by
          rcases lt_trichotomy δ 0 with hlt2 | heq2 | hgt2
          · exact hlt2
          · exact absurd (by omega : i = N / 2) hnei
          · exact absurd hgt2 hdpos
        omega
    have hle : ∑ m ∈ ((Finset.range N).filter
        (fun n => ind.getD n false = true ∧ 0 ≤ (n : ℤ) + δ ∧ (n : ℤ) + δ < (N : ℤ))).image
          (fun (n : ℕ) => ((n : ℤ) + δ).toNat), d.getD m 0
        ≤ ∑ m ∈ (Finset.range N).erase mstar, d.getD m 0 :=
      Finset.sum_le_sum_of_subset_of_nonneg hsub (fun k hk _ =>
        hpos k (by
          have := Finset.mem_range.mp (Finset.mem_of_mem_erase hk)
          omega))
    have heq2 : ∑ m ∈ (Finset.range N).erase mstar, d.getD m 0 = S - d.getD mstar 0 := by
      have hadd := Finset.add_sum_erase (Finset.range N) (fun m => d.getD m 0)
        (Finset.mem_range.mpr hmlt)
      rw [hS]
      linarith
    exact lt_of_le_of_lt (le_trans hle (le_of_eq heq2)) (by linarith)
  have hcenter : N / 2 < (correlateSame (ind.map boolToQ) d).length := by
    rw [hclen]
    omega
  apply argmaxFirst_eq_of_strict _ _ hcenter
  intro j hj hjne
  rw [hclen] at hj
  rw [hA]
  exact hB j hj hjne

theorem corr_offset_eq (data nav : Grid) (axis : ℕ) (hax : axis = 0 ∨ axis = 1) :
    corr_offset data nav axis =
      .ok ((((correlateSame ((navProfile nav axis).map boolToQ)
          (nansumAxis data axis)).length / 2 : ℕ) : ℤ)
        - (argmaxFirst (correlateSame ((navProfile nav axis).map boolToQ)
          (nansumAxis data axis)) : ℤ)) := by
  unfold corr_offset
  rw [if_pos hax]

theorem corr_offset_zero (data nav : Grid) (axis : ℕ) (hax : axis = 0 ∨ axis = 1)
    (hA : alignedAxis data nav axis) : corr_offset data nav axis = .ok 0 := by
  obtain ⟨hlen, hpos, hsupp, hex⟩ := hA
  have hex2 : ∃ k, k < (nansumAxis data axis).length ∧ 0 < (nansumAxis data axis).getD k 0 := by
    obtain ⟨k, h1, h2⟩ := hex
    exact ⟨k, h1, h2⟩
  have hcent := corrCenter (nansumAxis data axis) (navProfile nav axis)
    (by simpa [navProfile] using hlen) hpos
    (by
      intro k hk
      have := hsupp k hk
      simpa using this)
    hex2
  rw [corr_offset_eq data nav axis hax]
  have hlen2 : (correlateSame ((navProfile nav axis).map boolToQ) (nansumAxis data axis)).length
      = (navProfile nav axis).length := by
    rw [correlateSame_length, List.length_map]
  rw [hlen2, hcent]
  rw [show ((navProfile nav axis).length / 2 : ℕ) = (navProfile nav axis).length / 2 from rfl]
  simp

/-- C4: for an unshifted data band / validity mask pair (per axis, the
collapsed non-negative data profile has exactly the navigation indicator as
support, and the support is non-empty), `corr_offset` returns offset 0 on
both axes; on each axis the returned offset is `len(corr)//2 - argmax(corr)`
of the same-length cross-correlation of the collapsed profiles; and the
argmax resolves ties to the lowest index (every index before the returned
argmax is strictly below the maximum). -/
theorem computeOffset_spec (data nav : Grid)
    (h0 : alignedAxis data nav 0) (h1 : alignedAxis data nav 1) :
    (corr_offset data nav 0 = .ok 0 ∧ corr_offset data nav 1 = .ok 0)
    ∧ (∀ axis, axis = 0 ∨ axis = 1 →
        corr_offset data nav axis =
          .ok ((((correlateSame ((navProfile nav axis).map boolToQ)
              (nansumAxis data axis)).length / 2 : ℕ) : ℤ)
            - (argmaxFirst (correlateSame ((navProfile nav axis).map boolToQ)
              (nansumAxis data axis)) : ℤ)))
    ∧ (∀ axis j,
        j < argmaxFirst (correlateSame ((navProfile nav axis).map boolToQ)
          (nansumAxis data axis)) →
        (correlateSame ((navProfile nav axis).map boolToQ) (nansumAxis data axis)).getD j 0
          < (correlateSame ((navProfile nav axis).map boolToQ) (nansumAxis data axis)).getD
            (argmaxFirst (correlateSame ((navProfile nav axis).map boolToQ)
              (nansumAxis data axis))) 0) :=
  ⟨⟨corr_offset_zero data nav 0 (Or.inl rfl) h0, corr_offset_zero data nav 1 (Or.inr rfl) h1⟩,
   fun axis hax => corr_offset_eq data nav axis hax,
   fun _ j hj => argmaxFirst_ties _ j hj⟩

/-- Witness for C4 on a 2×2 aligned pair with a single bright pixel. -/
theorem computeOffset_spec_witness :
    (alignedAxis [[some 1, some 0], [some 0, some 0]] [[some 1, some 0], [some 0, some 0]] 0
      ∧ alignedAxis [[some 1, some 0], [some 0, some 0]] [[some 1, some 0], [some 0, some 0]] 1)
    ∧ (corr_offset [[some 1, some 0], [some 0, some 0]] [[some 1, some 0], [some 0, some 0]] 0
        = .ok 0
      ∧ corr_offset [[some 1, some 0], [some 0, some 0]] [[some 1, some 0], [some 0, some 0]] 1
        = .ok 0) := by
  have hr2 : List.range 2 = [0, 1] := rfl
  have e0 : nansumAxis [[some 1, some 0], [some 0, some 0]] 0 = [1, 0] := by
    norm_num [nansumAxis, width, hr2]
  have e1 : nansumAxis [[some 1, some 0], [some 0, some 0]] 1 = [1, 0] := by
    norm_num [nansumAxis]
  have n0 : navProfile [[some 1, some 0], [some 0, some 0]] 0 = [true, false] := by
    norm_num [navProfile, nansumAxis, width, hr2]
  have n1 : navProfile [[some 1, some 0], [some 0, some 0]] 1 = [true, false] := by
    norm_num [navProfile, nansumAxis]
  have h0 : alignedAxis [[some 1, some 0], [some 0, some 0]]
      [[some 1, some 0], [some 0, some 0]] 0 := by
    unfold alignedAxis
    rw [e0, n0]
    refine ⟨rfl, ?_, ?_, ⟨0, by norm_num, by norm_num⟩⟩
    · intro k hk
      simp only [List.length_cons, List.length_nil] at hk
      interval_cases k <;> norm_num
    · intro k hk
      simp only [List.length_cons, List.length_nil] at hk
      interval_cases k <;> norm_num
  have h1 : alignedAxis [[some 1, some 0], [some 0, some 0]]
      [[some 1, some 0], [some 0, some 0]] 1 := by
    unfold alignedAxis
    rw [e1, n1]
    refine ⟨rfl, ?_, ?_, ⟨0, by norm_num, by norm_num⟩⟩
    · intro k hk
      simp only [List.length_cons, List.length_nil] at hk
      interval_cases k <;> norm_num
    · intro k hk
      simp only [List.length_cons, List.length_nil] at hk
      interval_cases k <;> norm_num
  exact ⟨⟨h0, h1⟩, (computeOffset_spec _ _ h0 h1).1⟩

/-! ## Counterexamples -/

/-- C2 counterexample: on the raster `[min, max]` of a float32 cube with
multiplier 1 and base 0, the underflow-coded pixel is not replaced by the
maximum value observed in the array (`f32max`, which is finite): both pixels
decode to NaN, because the NULL test runs after the substitution and the
substituted maximum is itself NULL-coded. -/
theorem float_sanitize_claim_cex :
    load_float_data [f32min, f32max] 1 0 f32min f32max = [none, none]
    ∧ np_max ([f32min, f32max].map (fun r => r * 1 + 0)) = f32max
    ∧ (load_float_data [f32min, f32max] 1 0 f32min f32max).getD 0 none
        ≠ some (np_max ([f32min, f32max].map (fun r => r * 1 + 0))) := by
  refine ⟨?_, ?_, ?_⟩ <;>
    norm_num [load_float_data, np_max, qmax, qabs, is_null, f32min, f32max]
  exact fun h => Option.noConfusion h

/-- C3 counterexample: in data mode (`is_data = true`) the content is not
translated, neither by `(Δs, Δl) = (1, 0)` nor by the negated direction
`(-1, 0)`; only the border strip is masked. -/
theorem img_offset_data_mode_cex :
    img_offset [[some 1, some 2], [some 3, some 4]] (some (1, 0)) true
        = [[none, some 2], [none, some 4]]
    ∧ img_offset [[some 1, some 2], [some 3, some 4]] (some (1, 0)) true
        ≠ nav_offset [[some 1, some 2], [some 3, some 4]] 1 0
    ∧ img_offset [[some 1, some 2], [some 3, some 4]] (some (1, 0)) true
        ≠ nav_offset [[some 1, some 2], [some 3, some 4]] (-1) 0 := by
  refine ⟨by decide, by decide, by decide⟩

/-- C5 counterexample: on the edge mask of the diagonal condition
`[[1, 0], [0, 1]]` the tracer produces the contour `(0,0) → (1,1) → (0,0)`,
whose successive points are diagonal, not 4-connected-adjacent. -/
theorem contour_not_adj4_cex :
    ls_contour (edges [[true, false], [false, true]])
        = .ok ([0, 1, 0], [0, 1, 0], [[false, false], [false, false]])
    ∧ adj4 (0, 0) (1, 1) = false := by
  refine ⟨by decide, by decide⟩

/-- C7 counterexample: on an empty edge mask (every traceable contour
vacuously has at most 250 points) `ls_contours` raises the too-many-polygons
error instead of returning an empty list. -/
theorem ls_contours_empty_mask_cex :
    ls_contours (edges [[false]]) 250 = .error "Too many polygons in the contour." := by
  decide

end SSI
